import Mathlib

/-!
# Project Pulse — Repository Data Aggregation Engine: formal model

A shallow embedding, in Lean 4, of the backend logic of the Project Pulse
repository health dashboard (`githubService.js` together with the pulse
router).  Each JavaScript function that shapes data is translated into an
executable Lean definition; asynchronous fetching is modelled by passing the
already-fetched upstream payloads (or their failures) explicitly.  Timestamps
are modelled as natural numbers (milliseconds), header values as strings or
parsed numbers exactly as the code consumes them, and JavaScript `Map`/`Set`/
object insertion-order semantics are reproduced by association lists.
-/

namespace ProjectPulse

/-- A normalized commit as produced by `fetchRecentCommits`:
`{sha, author, authorAvatar, date, message, branch}`.  The `date` field is the
commit timestamp; the code compares commits with
`new Date(b.date) - new Date(a.date)`, so we carry the timestamp as a number
of milliseconds. -/
structure Commit where
  sha : String
  author : String
  authorAvatar : Option String
  date : Nat
  message : String
  branch : String
  deriving Repr, DecidableEq

/-- The commit-deduplication loop of `fetchRepoData`:
```js
const commitMap = new Map();
commitArrays.flat().forEach(commit => {
  if (!commitMap.has(commit.sha)) { commitMap.set(commit.sha, commit); }
});
```
A JavaScript `Map` preserves insertion order, so the result is the input list
with every commit whose `sha` was already seen dropped.  `seen` is the set of
shas already present in the map. -/
def dedupeByShaAux (seen : List String) : List Commit → List Commit
  | [] => []
  | c :: cs =>
    if c.sha ∈ seen then dedupeByShaAux seen cs
    else c :: dedupeByShaAux (c.sha :: seen) cs

/-- The list `Array.from(commitMap.values())` for the loop above, starting from an
empty map. -/
def dedupeBySha (cs : List Commit) : List Commit :=
  dedupeByShaAux [] cs

/-- The sort comparator `(a, b) => new Date(b.date) - new Date(a.date)`,
as a boolean "a may come before b" relation: descending by timestamp. -/
def commitDescLe (a b : Commit) : Bool :=
  b.date ≤ a.date

/-- The commit aggregation of `fetchRepoData` (lines 456–465): flatten the
per-branch commit arrays, deduplicate by `sha` keeping the first occurrence,
and sort descending by timestamp. -/
def aggregateCommits (commitArrays : List (List Commit)) : List Commit :=
  (dedupeBySha commitArrays.flatten).mergeSort commitDescLe

theorem mem_of_mem_dedupeByShaAux {seen : List String} {cs : List Commit}
    {c : Commit} (h : c ∈ dedupeByShaAux seen cs) : c ∈ cs := by
  induction cs generalizing seen with
  | nil => simp [dedupeByShaAux] at h
  | cons d cs ih =>
    by_cases hd : d.sha ∈ seen
    · simp only [dedupeByShaAux, if_pos hd] at h
      exact List.mem_cons_of_mem _ (ih h)
    · simp only [dedupeByShaAux, if_neg hd, List.mem_cons] at h
      rcases h with rfl | h
      · exact List.mem_cons_self _ _
      · exact List.mem_cons_of_mem _ (ih h)

theorem sha_not_mem_seen_of_mem_dedupeByShaAux {seen : List String}
    {cs : List Commit} {c : Commit} (h : c ∈ dedupeByShaAux seen cs) :
    c.sha ∉ seen := by
  induction cs generalizing seen with
  | nil => simp [dedupeByShaAux] at h
  | cons d cs ih =>
    by_cases hd : d.sha ∈ seen
    · simp only [dedupeByShaAux, if_pos hd] at h
      exact ih h
    · simp only [dedupeByShaAux, if_neg hd, List.mem_cons] at h
      rcases h with rfl | h
      · exact hd
      · intro hc
        exact ih h (List.mem_cons_of_mem _ hc)

theorem find?_eq_of_mem_dedupeByShaAux {seen : List String} {cs : List Commit}
    {c : Commit} (h : c ∈ dedupeByShaAux seen cs) :
    cs.find? (fun d => d.sha == c.sha) = some c := by
  induction cs generalizing seen with
  | nil => simp [dedupeByShaAux] at h
  | cons d cs ih =>
    by_cases hd : d.sha ∈ seen
    · simp only [dedupeByShaAux, if_pos hd] at h
      have hne : d.sha ≠ c.sha := fun he =>
        sha_not_mem_seen_of_mem_dedupeByShaAux h (he ▸ hd)
      rw [List.find?_cons_of_neg _ (by simpa using hne)]
      exact ih h
    · simp only [dedupeByShaAux, if_neg hd, List.mem_cons] at h
      rcases h with rfl | h
      · simp [List.find?]
      · have hne : d.sha ≠ c.sha := by
          intro he
          exact sha_not_mem_seen_of_mem_dedupeByShaAux h
            (by simp [he])
        rw [List.find?_cons_of_neg _ (by simpa using hne)]
        exact ih h

theorem countP_dedupeByShaAux_le_one (seen : List String) (cs : List Commit)
    (s : String) :
    (dedupeByShaAux seen cs).countP (fun c => c.sha == s) ≤ 1 := by
  induction cs generalizing seen with
  | nil => simp [dedupeByShaAux]
  | cons d cs ih =>
    by_cases hd : d.sha ∈ seen
    · simpa only [dedupeByShaAux, if_pos hd] using ih seen
    · simp only [dedupeByShaAux, if_neg hd]
      by_cases hs : d.sha = s
      · rw [List.countP_cons_of_pos _ _ (by simpa using hs)]
        have hzero :
            (dedupeByShaAux (d.sha :: seen) cs).countP (fun c => c.sha == s)
              = 0 := by
          rw [List.countP_eq_zero]
          intro c hc
          have := sha_not_mem_seen_of_mem_dedupeByShaAux hc
          simp only [beq_iff_eq]
          intro he
          exact this (by simp [he, hs])
        omega
      · rw [List.countP_cons_of_neg _ _ (by simpa using hs)]
        exact ih _

theorem exists_mem_dedupeByShaAux (seen : List String) (cs : List Commit)
    (s : String) (hs : s ∈ cs.map Commit.sha) (hseen : s ∉ seen) :
    ∃ c ∈ dedupeByShaAux seen cs, c.sha = s := by
  induction cs generalizing seen with
  | nil => simp at hs
  | cons d cs ih =>
    by_cases hds : d.sha = s
    · have hd : d.sha ∉ seen := by rw [hds]; exact hseen
      refine ⟨d, ?_, hds⟩
      simp [dedupeByShaAux, if_neg hd]
    · have hs' : s ∈ cs.map Commit.sha := by
        rcases List.mem_map.mp hs with ⟨c, hc, hcs⟩
        rcases List.mem_cons.mp hc with rfl | hc
        · exact absurd hcs hds
        · exact List.mem_map.mpr ⟨c, hc, hcs⟩
      by_cases hd : d.sha ∈ seen
      · rcases ih seen hs' hseen with ⟨c, hc, hcs⟩
        exact ⟨c, by simp [dedupeByShaAux, if_pos hd, hc], hcs⟩
      · have hseen' : s ∉ d.sha :: seen := by
          simp only [List.mem_cons]
          rintro (rfl | h)
          · exact hds rfl
          · exact hseen h
        rcases ih (d.sha :: seen) hs' hseen' with ⟨c, hc, hcs⟩
        exact ⟨c, by simp [dedupeByShaAux, if_neg hd, hc], hcs⟩

theorem aggregateCommits_perm_dedupe (commitArrays : List (List Commit)) :
    (aggregateCommits commitArrays).Perm (dedupeBySha commitArrays.flatten) :=
  List.mergeSort_perm _ _

theorem commitDescLe_trans (a b c : Commit) :
    commitDescLe a b = true → commitDescLe b c = true →
    commitDescLe a c = true := by
  simp only [commitDescLe, decide_eq_true_eq]
  omega

theorem commitDescLe_total (a b : Commit) :
    (commitDescLe a b || commitDescLe b a) = true := by
  simp only [commitDescLe, Bool.or_eq_true, decide_eq_true_eq]
  omega

/-- C1: For every set of per-branch commit sequences, the aggregated commit
sequence produced by `fetchRepoData` is sorted descending by commit timestamp,
contains each `sha` of the input exactly once, and every commit it contains is
the first-seen copy of its `sha` in the flattened per-branch order (so when a
`sha` occurs in more than one branch's sequence, the first-seen copy is
retained). -/
theorem aggregateCommits_unique_first_sorted
    (commitArrays : List (List Commit)) :
    ((aggregateCommits commitArrays).Pairwise fun a b => b.date ≤ a.date) ∧
    (∀ s, s ∈ commitArrays.flatten.map Commit.sha →
      (aggregateCommits commitArrays).countP (fun c => c.sha == s) = 1) ∧
    ∀ c ∈ aggregateCommits commitArrays,
      commitArrays.flatten.find? (fun d => d.sha == c.sha) = some c := by
  refine ⟨?_, ?_, ?_⟩
  · have h := List.sorted_mergeSort commitDescLe_trans commitDescLe_total
      (dedupeBySha commitArrays.flatten)
    exact h.imp (by simp [commitDescLe])
  · intro s hs
    rw [(aggregateCommits_perm_dedupe commitArrays).countP_eq]
    have hle := countP_dedupeByShaAux_le_one [] commitArrays.flatten s
    rcases exists_mem_dedupeByShaAux [] commitArrays.flatten s hs
      (by simp) with ⟨c, hc, hcs⟩
    have hpos : 0 < (dedupeBySha commitArrays.flatten).countP
        (fun c => c.sha == s) :=
      List.countP_pos_iff.mpr ⟨c, hc, by simp [hcs]⟩
    unfold dedupeBySha at hpos ⊢
    omega
  · intro c hc
    have hc' : c ∈ dedupeBySha commitArrays.flatten :=
      (aggregateCommits_perm_dedupe commitArrays).mem_iff.mp hc
    exact find?_eq_of_mem_dedupeByShaAux hc'

/-- A concrete pair of branch histories sharing the sha `"s1"`, used to
instantiate the hypotheses of `aggregateCommits_unique_first_sorted`. -/
def demoCommitArrays : List (List Commit) :=
  [[⟨"s1", "alice", none, 100, "first", "main"⟩],
   [⟨"s1", "alice", none, 100, "first", "dev"⟩,
    ⟨"s2", "bob", none, 50, "second", "dev"⟩]]

theorem aggregateCommits_unique_first_sorted_witness :
    ("s1" ∈ demoCommitArrays.flatten.map Commit.sha) ∧
    (aggregateCommits demoCommitArrays).countP (fun c => c.sha == "s1") = 1 :=
  ⟨by decide,
   (aggregateCommits_unique_first_sorted demoCommitArrays).2.1 "s1" (by decide)⟩

/-- A normalized branch as produced by `fetchBranches`:
`{name, lastCommitDate, lastCommitAuthor, daysSinceLastCommit, isStale}`.
`daysSinceLastCommit` is `null` when the tip commit had no resolvable
timestamp, otherwise a whole number of days. -/
structure Branch where
  name : String
  lastCommitDate : Option String
  lastCommitAuthor : Option String
  daysSinceLastCommit : Option Int
  isStale : Bool
  deriving Repr, DecidableEq

/-- A normalized open pull request as produced by `fetchPullRequests`.
`branch` is `pr.head?.ref || null`: the head branch name, or `none`. -/
structure PullRequest where
  number : Nat
  title : String
  author : String
  authorAvatar : Option String
  state : String
  createdAt : String
  updatedAt : String
  mergedAt : Option String
  branch : Option String
  baseBranch : Option String
  isDraft : Bool
  deriving Repr, DecidableEq

/-- A normalized issue label `{name, color}`. -/
structure Label where
  name : String
  color : String
  deriving Repr, DecidableEq

/-- A normalized issue assignee `{login, avatarUrl}`. -/
structure Assignee where
  login : String
  avatarUrl : Option String
  deriving Repr, DecidableEq

/-- A normalized issue as produced by `fetchIssues`. -/
structure Issue where
  number : Nat
  title : String
  state : String
  labels : List Label
  assignees : List Assignee
  createdAt : String
  updatedAt : String
  author : String
  deriving Repr, DecidableEq

/-- The output shape of `markStaleBranches`: the spread branch with its
`isStale` recomputed and a `hasOpenPR` flag added. -/
structure BranchStatus where
  name : String
  lastCommitDate : Option String
  lastCommitAuthor : Option String
  daysSinceLastCommit : Option Int
  isStale : Bool
  hasOpenPR : Bool
  deriving Repr, DecidableEq

/-- The set `new Set(pullRequests.map(pr => pr.branch).filter(Boolean))` — the head
branch names of the open pull requests, with `null` and the falsy empty
string dropped.  Membership in the JS `Set` coincides with membership in
this list. -/
def prBranchSet (pullRequests : List PullRequest) : List String :=
  ((pullRequests.map PullRequest.branch).filterMap id).filter
    (fun s => !(s == ""))

/-- The body of the `branches.map` callback in `markStaleBranches`:
`hasOpenPR = prBranches.has(branch.name)`,
`isInactive = branch.daysSinceLastCommit !== null && branch.daysSinceLastCommit >= 2`,
result `{...branch, isStale: isInactive && hasOpenPR, hasOpenPR}`. -/
def markBranch (prBranches : List String) (branch : Branch) : BranchStatus :=
  let hasOpenPR : Bool := branch.name ∈ prBranches
  let isInactive : Bool :=
    match branch.daysSinceLastCommit with
    | some d => decide (2 ≤ d)
    | none => false
  { name := branch.name
    lastCommitDate := branch.lastCommitDate
    lastCommitAuthor := branch.lastCommitAuthor
    daysSinceLastCommit := branch.daysSinceLastCommit
    isStale := isInactive && hasOpenPR
    hasOpenPR := hasOpenPR }

/-- The function `markStaleBranches(branches, pullRequests, issues)` (lines 405–421).  The
`issues` argument is accepted but never read by the body. -/
def markStaleBranches (branches : List Branch) (pullRequests : List PullRequest)
    (issues : List Issue) : List BranchStatus :=
  branches.map (markBranch (prBranchSet pullRequests))

/-- The marking described by the specification, written from its words: a
branch is stale iff its `daysSinceLastCommit` is known and ≥ 2 AND its name
equals the head branch of at least one open pull request; `hasOpenPR` is
recorded on every branch regardless of staleness. -/
def specMarkBranch (pullRequests : List PullRequest) (branch : Branch) :
    BranchStatus :=
  let hasOpenPR : Bool :=
    decide (∃ pr ∈ pullRequests, pr.branch = some branch.name)
  let isInactive : Bool :=
    decide (∃ d, branch.daysSinceLastCommit = some d ∧ 2 ≤ d)
  { name := branch.name
    lastCommitDate := branch.lastCommitDate
    lastCommitAuthor := branch.lastCommitAuthor
    daysSinceLastCommit := branch.daysSinceLastCommit
    isStale := isInactive && hasOpenPR
    hasOpenPR := hasOpenPR }

theorem mem_prBranchSet_iff (pullRequests : List PullRequest) (s : String)
    (hne : ∀ pr ∈ pullRequests, pr.branch ≠ some "") :
    s ∈ prBranchSet pullRequests ↔
      ∃ pr ∈ pullRequests, pr.branch = some s := by
  simp only [prBranchSet, List.mem_filter, List.mem_filterMap, List.mem_map,
    id_eq, Bool.not_eq_eq_eq_not, Bool.not_true, beq_eq_false_iff_ne, ne_eq]
  constructor
  · rintro ⟨⟨b, ⟨pr, hpr, rfl⟩, hbs⟩, -⟩
    exact ⟨pr, hpr, hbs⟩
  · rintro ⟨pr, hpr, hs⟩
    refine ⟨⟨pr.branch, ⟨pr, hpr, rfl⟩, hs⟩, ?_⟩
    intro he
    exact hne pr hpr (he ▸ hs)

/-- C2: a branch is marked stale iff its `daysSinceLastCommit` is non-null
and ≥ 2 AND its name equals the head branch of at least one open pull
request; `hasOpenPR` is set on every branch regardless of staleness.  The
hypothesis records the invariant of the normalized pull-request schema: a
head branch is `null` or a nonempty name (`pr.head?.ref || null` can never
produce the empty string). -/
theorem markStaleBranches_spec (branches : List Branch)
    (pullRequests : List PullRequest) (issues : List Issue)
    (hne : ∀ pr ∈ pullRequests, pr.branch ≠ some "") :
    markStaleBranches branches pullRequests issues =
      branches.map (specMarkBranch pullRequests) := by
  unfold markStaleBranches
  apply List.map_congr_left
  intro b _
  have hpr : (decide (b.name ∈ prBranchSet pullRequests)) =
      decide (∃ pr ∈ pullRequests, pr.branch = some b.name) := by
    simp [mem_prBranchSet_iff pullRequests b.name hne]
  have hinact : (match b.daysSinceLastCommit with
      | some d => decide (2 ≤ d)
      | none => false) =
      decide (∃ d, b.daysSinceLastCommit = some d ∧ 2 ≤ d) := by
    cases b.daysSinceLastCommit with
    | none => simp
    | some d => simp
  simp only [markBranch, specMarkBranch, BranchStatus.mk.injEq, true_and,
    and_true, hpr, hinact]

/-- The specification's three staleness test vectors: 5 days with no matching
pull request, 2 days with a match, 1 day with a match. -/
def demoBranches : List Branch :=
  [⟨"orphan", some "d", some "a", some 5, false⟩,
   ⟨"feature", some "d", some "a", some 2, false⟩,
   ⟨"fresh", some "d", some "a", some 1, false⟩]

/-- Two open pull requests whose head branches are `feature` and `fresh`. -/
def demoPullRequests : List PullRequest :=
  [⟨1, "t", "a", none, "open", "c", "u", none, some "feature", some "main",
    false⟩,
   ⟨2, "t", "a", none, "open", "c", "u", none, some "fresh", some "main",
    false⟩]

theorem markStaleBranches_spec_witness :
    markStaleBranches demoBranches demoPullRequests [] =
      demoBranches.map (specMarkBranch demoPullRequests) :=
  markStaleBranches_spec demoBranches demoPullRequests [] (by decide)

/-- C9: branch staleness marking does not depend on the issues data —
varying the issues input never changes the output of `markStaleBranches`. -/
theorem markStaleBranches_ignores_issues (branches : List Branch)
    (pullRequests : List PullRequest) (issues₁ issues₂ : List Issue) :
    markStaleBranches branches pullRequests issues₁ =
      markStaleBranches branches pullRequests issues₂ := rfl

/-- An upstream HTTP response as `githubFetch` consumes it: the status code
and text, the two rate-limit headers (absent headers are `none`;
`X-RateLimit-Remaining` is compared as a string, `X-RateLimit-Reset` is used
numerically, with `null` coercing to `0`), and the parsed JSON body. -/
structure HttpResponse (β : Type) where
  status : Nat
  statusText : String
  rateLimitRemaining : Option String
  rateLimitReset : Option Nat
  body : β
  deriving Repr, DecidableEq

/-- The typed errors thrown by `githubFetch`, one per thrown `Error`:
not-found, rate-limited (carrying the reset time in milliseconds, i.e.
`resetTime * 1000`), access-denied, and the generic upstream error carrying
status code and status text. -/
inductive FetchError where
  | notFound : FetchError
  | rateLimited (resetAtMillis : Nat) : FetchError
  | accessDenied : FetchError
  | upstreamError (status : Nat) (statusText : String) : FetchError
  deriving Repr, DecidableEq

/-- The predicate `response.ok` of the Fetch API: status in the inclusive range 200–299. -/
def responseOk {β : Type} (r : HttpResponse β) : Bool :=
  decide (200 ≤ r.status) && decide (r.status ≤ 299)

/-- The error-translation tail of `githubFetch` (lines 180–198), applied to
an already-received response: 404 throws not-found; 403 with
`X-RateLimit-Remaining === '0'` throws rate-limited with
`new Date(resetTime * 1000)` (a `null` reset header coerces to `0`); any
other 403 throws access-denied; any other non-ok status throws the generic
upstream error; otherwise the JSON body is returned. -/
def githubFetch {β : Type} (r : HttpResponse β) : Except FetchError β :=
  if r.status = 404 then
    .error .notFound
  else if r.status = 403 then
    if r.rateLimitRemaining = some "0" then
      .error (.rateLimited (r.rateLimitReset.getD 0 * 1000))
    else
      .error .accessDenied
  else if !responseOk r then
    .error (.upstreamError r.status r.statusText)
  else
    .ok r.body

/-- C3: `githubFetch` translates status 404 into not-found; status 403 with a
zero remaining-rate-limit header into rate-limited carrying the reset time
derived from the rate-limit-reset header; status 403 with a nonzero or absent
remaining-rate-limit header into access-denied; and any other non-2xx status
into the upstream error carrying the status code and status text. -/
theorem githubFetch_error_translation {β : Type} (r : HttpResponse β) :
    (r.status = 404 → githubFetch r = .error .notFound) ∧
    (r.status = 403 → r.rateLimitRemaining = some "0" →
      githubFetch r = .error (.rateLimited (r.rateLimitReset.getD 0 * 1000))) ∧
    (r.status = 403 → r.rateLimitRemaining ≠ some "0" →
      githubFetch r = .error .accessDenied) ∧
    (r.status ≠ 404 → r.status ≠ 403 → ¬(200 ≤ r.status ∧ r.status ≤ 299) →
      githubFetch r = .error (.upstreamError r.status r.statusText)) := by
  refine ⟨?_, ?_, ?_, ?_⟩
  · intro h404
    simp [githubFetch, h404]
  · intro h403 hrem
    simp [githubFetch, h403, hrem]
  · intro h403 hrem
    simp [githubFetch, h403, hrem]
  · intro h404 h403 hok
    have hok' : responseOk r = false := by
      simp only [responseOk, Bool.and_eq_false_iff, decide_eq_false_iff_not]
      omega
    simp [githubFetch, h404, h403, hok']

theorem githubFetch_error_translation_witness :
    (githubFetch (⟨404, "Not Found", none, none, 0⟩ : HttpResponse Nat) =
      .error .notFound) ∧
    (githubFetch (⟨403, "Forbidden", some "0", some 17, 0⟩ :
        HttpResponse Nat) = .error (.rateLimited 17000)) ∧
    (githubFetch (⟨403, "Forbidden", some "42", none, 0⟩ :
        HttpResponse Nat) = .error .accessDenied) ∧
    (githubFetch (⟨500, "Internal Server Error", none, none, 0⟩ :
        HttpResponse Nat) = .error (.upstreamError 500
          "Internal Server Error")) :=
  ⟨(githubFetch_error_translation _).1 rfl,
   (githubFetch_error_translation
     (⟨403, "Forbidden", some "0", some 17, 0⟩ : HttpResponse Nat)).2.1
       rfl rfl,
   (githubFetch_error_translation _).2.2.1 rfl (by decide),
   (githubFetch_error_translation _).2.2.2 (by decide) (by decide)
     (by decide)⟩

/-- A raw label record from the issues endpoint, as `fetchIssues` reads it. -/
structure RawLabel where
  name : String
  color : String
  deriving Repr, DecidableEq

/-- A raw assignee record from the issues endpoint. -/
structure RawAssignee where
  login : String
  avatar_url : Option String
  deriving Repr, DecidableEq

/-- A raw record returned by the issues endpoint.  `user` is the author's
login when `issue.user` is present (`issue.user?.login`); `pull_request` is
the truthiness of the pull-request back-reference object that marks records
which are really pull requests. -/
structure RawIssue where
  number : Nat
  title : String
  state : String
  labels : List RawLabel
  assignees : List RawAssignee
  created_at : String
  updated_at : String
  user : Option String
  pull_request : Bool
  deriving Repr, DecidableEq

/-- The `.map` callback of `fetchIssues`: the normalized issue, with labels
and assignees mapped elementwise in order and the author resolved as
`issue.user?.login || 'unknown'` (a missing user or falsy empty login falls
back to `"unknown"`). -/
def mapIssue (issue : RawIssue) : Issue :=
  { number := issue.number
    title := issue.title
    state := issue.state
    labels := issue.labels.map (fun label => ⟨label.name, label.color⟩)
    assignees := issue.assignees.map (fun a => ⟨a.login, a.avatar_url⟩)
    createdAt := issue.created_at
    updatedAt := issue.updated_at
    author :=
      match issue.user with
      | some l => if l = "" then "unknown" else l
      | none => "unknown" }

/-- The function `fetchIssues` (lines 313–335), applied to the already-fetched raw pages:
`issues.filter(issue => !issue.pull_request).map(...)`. -/
def fetchIssues (issues : List RawIssue) : List Issue :=
  (issues.filter (fun issue => !issue.pull_request)).map mapIssue

/-- C8: every raw record carrying a pull-request back-reference is excluded
from the issues result, and every record without one is kept (in order) and
mapped to the normalized issue schema — the result is exactly the normalized
image of the non-pull-request records, and a normalized issue is in the
result exactly when it comes from a raw record without a pull-request
back-reference. -/
theorem fetchIssues_excludes_pull_requests (issues : List RawIssue) :
    fetchIssues issues =
      (issues.filter (fun issue => !issue.pull_request)).map mapIssue ∧
    (∀ i ∈ issues,
      i.pull_request = false → mapIssue i ∈ fetchIssues issues) ∧
    ∀ x ∈ fetchIssues issues,
      ∃ i ∈ issues, i.pull_request = false ∧ x = mapIssue i := by
  refine ⟨rfl, ?_, ?_⟩
  · intro i hi hpr
    exact List.mem_map_of_mem _ (List.mem_filter.mpr ⟨hi, by simp [hpr]⟩)
  · intro x hx
    rcases List.mem_map.mp hx with ⟨i, hi, rfl⟩
    rcases List.mem_filter.mp hi with ⟨hi', hpr⟩
    exact ⟨i, hi', by simpa using hpr, rfl⟩

/-- A raw issues page holding one true issue and one pull-request-flagged
record. -/
def demoRawIssues : List RawIssue :=
  [⟨1, "bug", "open", [⟨"p0", "ff0000"⟩], [⟨"carol", none⟩], "c", "u",
    some "dave", false⟩,
   ⟨2, "pr", "open", [], [], "c", "u", some "erin", true⟩]

theorem fetchIssues_excludes_pull_requests_witness :
    mapIssue (demoRawIssues.get ⟨0, by decide⟩) ∈ fetchIssues demoRawIssues :=
  (fetchIssues_excludes_pull_requests demoRawIssues).2.1
    (demoRawIssues.get ⟨0, by decide⟩) (by decide) rfl

/-- A normalized contributor as produced by `fetchContributors`:
`{login, avatarUrl, totalCommits, commitsByDay}`.  `commitsByDay` is a JS
object mapping an ISO date to a commit count; it is modelled as an
association list in insertion order, with the day keyed by its UTC day index
(see `commitDayKey`). -/
structure Contributor where
  login : String
  avatarUrl : Option String
  totalCommits : Nat
  commitsByDay : List (Nat × Nat)
  deriving Repr, DecidableEq

/-- The expression `new Date(commit.date).toISOString().split('T')[0]` — the UTC calendar
date of the commit timestamp.  With timestamps in milliseconds since the
epoch, two timestamps render the same ISO date exactly when they fall in the
same UTC day, so the date key is modelled by the day index
`millis / 86400000`. -/
def commitDayKey (millis : Nat) : Nat :=
  millis / 86400000

/-- The update `activityByAuthor[author][date] = (activityByAuthor[author][date] || 0) + 1`
on a JS object: bump the existing day entry in place, or append a new day
entry with count 1. -/
def bumpDay : List (Nat × Nat) → Nat → List (Nat × Nat)
  | [], d => [(d, 1)]
  | (k, v) :: rest, d =>
    if k = d then (k, v + 1) :: rest else (k, v) :: bumpDay rest d

/-- One iteration of the `commits.forEach` loop of
`enrichContributorsWithActivity`: create the author's entry if absent, then
bump its counter for the commit's day. -/
def addCommitActivity :
    List (String × List (Nat × Nat)) → String → Nat →
      List (String × List (Nat × Nat))
  | [], a, d => [(a, [(d, 1)])]
  | (k, m) :: rest, a, d =>
    if k = a then (k, bumpDay m d) :: rest
    else (k, m) :: addCommitActivity rest a d

/-- The `activityByAuthor` object after the `commits.forEach` loop of
`enrichContributorsWithActivity`. -/
def buildActivity (commits : List Commit) :
    List (String × List (Nat × Nat)) :=
  commits.foldl
    (fun acc c => addCommitActivity acc c.author (commitDayKey c.date)) []

/-- The function `enrichContributorsWithActivity(contributors, commits)` (lines 383–400):
each contributor is spread unchanged except that `commitsByDay` becomes
`activityByAuthor[contributor.login] || {}`. -/
def enrichContributorsWithActivity (contributors : List Contributor)
    (commits : List Commit) : List Contributor :=
  contributors.map fun contributor =>
    { contributor with
      commitsByDay :=
        ((buildActivity commits).lookup contributor.login).getD [] }

theorem lookup_cons_pair {β : Type} (a k : String) (m : β)
    (rest : List (String × β)) :
    List.lookup a ((k, m) :: rest) =
      if a = k then some m else List.lookup a rest := by
  by_cases h : a = k
  · simp [List.lookup, h]
  · have hb : (a == k) = false := by simp [h]
    simp [List.lookup, hb, h]

theorem lookup_addCommitActivity
    (acc : List (String × List (Nat × Nat))) (a a' : String) (d : Nat) :
    (addCommitActivity acc a' d).lookup a =
      if a = a' then some (bumpDay ((acc.lookup a).getD []) d)
      else acc.lookup a := by
  induction acc with
  | nil =>
    simp only [addCommitActivity, lookup_cons_pair, List.lookup_nil]
    by_cases h : a = a' <;> simp [h, bumpDay]
  | cons e rest ih =>
    obtain ⟨k, m⟩ := e
    simp only [addCommitActivity]
    by_cases hk : k = a'
    · subst hk
      rw [if_pos rfl]
      simp only [lookup_cons_pair]
      by_cases ha : a = k <;> simp [ha]
    · rw [if_neg hk]
      simp only [lookup_cons_pair, ih]
      by_cases ha : a = k <;> by_cases ha' : a = a'
      · exact absurd (ha.symm.trans ha') hk
      · simp [ha, ha', hk]
      · have hak : ¬a' = k := fun he => ha (ha'.trans he)
        simp [ha, ha', hak]
      · simp [ha, ha']

theorem lookup_foldl_addCommitActivity (a : String) (cs : List Commit) :
    ∀ acc : List (String × List (Nat × Nat)),
      (cs.foldl
        (fun acc c => addCommitActivity acc c.author (commitDayKey c.date))
        acc).lookup a =
      (cs.filter (fun c => c.author == a)).foldl
        (fun o c => some (bumpDay (o.getD []) (commitDayKey c.date)))
        (acc.lookup a) := by
  induction cs with
  | nil => intro acc; rfl
  | cons c cs ih =>
    intro acc
    rw [List.foldl_cons, ih, lookup_addCommitActivity]
    by_cases hca : c.author = a
    · rw [if_pos hca.symm, List.filter_cons_of_pos (by simp [hca]),
        List.foldl_cons]
    · rw [if_neg (fun he => hca he.symm),
        List.filter_cons_of_neg (by simp [hca])]

theorem lookup_buildActivity (a : String) (cs : List Commit) :
    (buildActivity cs).lookup a =
      (cs.filter (fun c => c.author == a)).foldl
        (fun o c => some (bumpDay (o.getD []) (commitDayKey c.date)))
        none := by
  unfold buildActivity
  rw [lookup_foldl_addCommitActivity]
  rfl

/-- C10: contributor enrichment changes only the `commitsByDay` field: the
output has the same length and order, with every contributor's `login`,
`avatarUrl` and `totalCommits` unchanged, and the output depends only on the
commits whose author string matches some contributor's login — commits whose
author matches no login (which includes the `"unknown"` fallback author
whenever no contributor is named `"unknown"`) have no effect on the output.
The last conjunct states this as: two commit lists agreeing on their
login-matching subsequences enrich identically. -/
theorem enrichContributorsWithActivity_frame (contributors : List Contributor)
    (commits commits' : List Commit)
    (h : commits.filter
        (fun c => c.author ∈ contributors.map Contributor.login) =
      commits'.filter
        (fun c => c.author ∈ contributors.map Contributor.login)) :
    (enrichContributorsWithActivity contributors commits).map
        Contributor.login = contributors.map Contributor.login ∧
    (enrichContributorsWithActivity contributors commits).map
        Contributor.avatarUrl = contributors.map Contributor.avatarUrl ∧
    (enrichContributorsWithActivity contributors commits).map
        Contributor.totalCommits = contributors.map Contributor.totalCommits ∧
    enrichContributorsWithActivity contributors commits =
      enrichContributorsWithActivity contributors commits' := by
  refine ⟨?_, ?_, ?_, ?_⟩
  · simp [enrichContributorsWithActivity]
  · simp [enrichContributorsWithActivity]
  · simp [enrichContributorsWithActivity]
  · unfold enrichContributorsWithActivity
    apply List.map_congr_left
    intro x hx
    have hmem : x.login ∈ contributors.map Contributor.login :=
      List.mem_map_of_mem _ hx
    have hfilter : ∀ cs : List Commit,
        cs.filter (fun c => c.author == x.login) =
          (cs.filter
            (fun c => c.author ∈ contributors.map Contributor.login)).filter
            (fun c => c.author == x.login) := by
      intro cs
      rw [List.filter_filter]
      apply List.filter_congr
      intro c _
      by_cases hc : c.author = x.login
      · simp [hc, hmem]
      · simp [hc]
    have hkey : (buildActivity commits).lookup x.login =
        (buildActivity commits').lookup x.login := by
      rw [lookup_buildActivity, lookup_buildActivity, hfilter commits,
        hfilter commits', h]
    rw [hkey]

/-- Two contributors, together with a commit list that also carries a commit
by the `"unknown"` fallback author. -/
def demoContributors : List Contributor :=
  [⟨"alice", none, 10, []⟩, ⟨"bob", some "av", 3, []⟩]

/-- Commits by `alice` and by the unmatched `"unknown"` author. -/
def demoCommitsWithNoise : List Commit :=
  [⟨"s1", "alice", none, 100, "m", "main"⟩,
   ⟨"s3", "unknown", none, 200, "m", "main"⟩]

/-- The same commits with the unmatched one removed. -/
def demoCommitsClean : List Commit :=
  [⟨"s1", "alice", none, 100, "m", "main"⟩]

theorem enrichContributorsWithActivity_frame_witness :
    enrichContributorsWithActivity demoContributors demoCommitsWithNoise =
      enrichContributorsWithActivity demoContributors demoCommitsClean :=
  (enrichContributorsWithActivity_frame demoContributors demoCommitsWithNoise
    demoCommitsClean (by decide)).2.2.2

/-- The literal part `github\.com\/` of the url regex, as the character
sequence a candidate match position must start with. -/
def githubNeedle : List Char := "github.com/".toList

/-- Whether the second list starts with the first (needle, then haystack). -/
def listStartsWith : List Char → List Char → Bool
  | [], _ => true
  | _ :: _, [] => false
  | n :: ns, h :: hs => n == h && listStartsWith ns hs

/-- Completion of the url regex `([^\/]+)\/([^\/]+)` at a position right
after an occurrence of `github.com/`: a nonempty maximal non-slash run, a
literal slash, then a nonempty non-slash run.  Backtracking inside the greedy
runs can never help, because `[^\/]+` cannot match `'/'`, so the greedy
semantics is exact. -/
def matchSegments (cs : List Char) : Option (List Char × List Char) :=
  let seg1 := cs.takeWhile (fun c => c != '/')
  let rest1 := cs.dropWhile (fun c => c != '/')
  if seg1.isEmpty then none
  else
    match rest1 with
    | '/' :: rest2 =>
      let seg2 := rest2.takeWhile (fun c => c != '/')
      if seg2.isEmpty then none else some (seg1, seg2)
    | _ => none

/-- The search `repoUrl.match(/github\.com\/([^\/]+)\/([^\/]+)/)`: the
engine scans left to right for the first start position at which the whole
pattern matches; a position where `github.com/` occurs but the capture groups
cannot complete is skipped in favour of later positions. -/
def urlMatch : List Char → Option (List Char × List Char)
  | [] => none
  | c :: cs =>
    if listStartsWith githubNeedle (c :: cs) then
      match matchSegments ((c :: cs).drop githubNeedle.length) with
      | some r => some r
      | none => urlMatch cs
    else urlMatch cs

/-- The anchored match `/^([^\/]+)\/([^\/]+)$/`: a nonempty non-slash run,
a slash, and a nonempty slash-free remainder reaching the end of the
string. -/
def shortMatch (cs : List Char) : Option (List Char × List Char) :=
  let seg1 := cs.takeWhile (fun c => c != '/')
  let rest1 := cs.dropWhile (fun c => c != '/')
  if seg1.isEmpty then none
  else
    match rest1 with
    | '/' :: rest2 =>
      if rest2.isEmpty then none
      else if rest2.all (fun c => c != '/') then some (seg1, rest2) else none
    | _ => none

/-- The set of code points `String.prototype.trim()` strips: ECMAScript
WhiteSpace — TAB U+0009, VT U+000B, FF U+000C, SPACE U+0020, NBSP U+00A0,
ZWNBSP U+FEFF and the Unicode Space_Separator category (U+1680,
U+2000–U+200A, U+202F, U+205F, U+3000) — together with the LineTerminator
code points LF U+000A, CR U+000D, LS U+2028 and PS U+2029. -/
def jsWhitespace (c : Char) : Bool :=
  let n := c.toNat
  n == 0x9 || n == 0xA || n == 0xB || n == 0xC || n == 0xD || n == 0x20 ||
  n == 0xA0 || n == 0x1680 || (0x2000 ≤ n && n ≤ 0x200A) || n == 0x2028 ||
  n == 0x2029 || n == 0x202F || n == 0x205F || n == 0x3000 || n == 0xFEFF

/-- The call `repoUrl.trim()`: JS whitespace stripped from both ends. -/
def jsTrim (cs : List Char) : List Char :=
  ((cs.dropWhile jsWhitespace).reverse.dropWhile jsWhitespace).reverse

/-- The characters of the suffix removed by `.replace(/\.git$/, '')`. -/
def gitSuffix : List Char := ".git".toList

/-- Whether `cs` ends with the suffix `suf`. -/
def listEndsWith (suf cs : List Char) : Bool :=
  listStartsWith suf.reverse cs.reverse

/-- The call `.replace(/\.git$/, '')`: with the anchor `$`, the single
replacement removes one trailing `.git` when present and nothing otherwise. -/
def stripGit (cs : List Char) : List Char :=
  if listEndsWith gitSuffix cs then cs.take (cs.length - 4) else cs

/-- The message of the error thrown when neither pattern matches. -/
def invalidUrlMsg : String :=
  "Invalid repository URL. Use https://github.com/owner/repo or owner/repo format."

/-- The function `parseRepoUrl` (lines 146–162): try the url pattern on the raw
input, then the anchored short pattern on the trimmed input, stripping a
trailing `.git` from the second capture group; throw otherwise.  The result
pair is `(owner, repo)`. -/
def parseRepoUrl (repoUrl : String) : Except String (String × String) :=
  match urlMatch repoUrl.toList with
  | some (o, r) => .ok (String.mk o, String.mk (stripGit r))
  | none =>
    match shortMatch (jsTrim repoUrl.toList) with
    | some (o, r) => .ok (String.mk o, String.mk (stripGit r))
    | none => .error invalidUrlMsg


/-- Whether `github.com/` occurs anywhere in the list (so whether the url
regex has any candidate start position at all). -/
def hasGithubNeedle : List Char → Bool
  | [] => false
  | c :: cs => listStartsWith githubNeedle (c :: cs) || hasGithubNeedle cs

theorem takeWhile_append_slash (o n : List Char)
    (hos : ∀ c ∈ o, c ≠ '/') :
    (o ++ '/' :: n).takeWhile (fun c => c != '/') = o ∧
    (o ++ '/' :: n).dropWhile (fun c => c != '/') = '/' :: n := by
  induction o with
  | nil => simp [List.takeWhile_cons, List.dropWhile_cons]
  | cons c o ih =>
    have hc : (c != '/') = true := by
      simp [hos c (List.mem_cons_self c o)]
    have ih' := ih (fun x hx => hos x (List.mem_cons_of_mem c hx))
    simp [List.takeWhile_cons, List.dropWhile_cons, hc, ih'.1, ih'.2]

theorem matchSegments_split (o n : List Char) (ho : o ≠ []) (hn : n ≠ [])
    (hos : ∀ c ∈ o, c ≠ '/') (hns : ∀ c ∈ n, c ≠ '/') :
    matchSegments (o ++ '/' :: n) = some (o, n) := by
  have h := takeWhile_append_slash o n hos
  have hn' : n.takeWhile (fun c => c != '/') = n :=
    List.takeWhile_eq_self_iff.mpr (fun x hx => by simp [hns x hx])
  simp [matchSegments, h.1, h.2, hn', List.isEmpty_iff, ho, hn]

theorem matchSegments_none_of_no_slash (cs : List Char)
    (h : ∀ c ∈ cs, c ≠ '/') : matchSegments cs = none := by
  have hdrop : cs.dropWhile (fun c => c != '/') = [] :=
    List.dropWhile_eq_nil_iff.mpr (fun x hx => by simp [h x hx])
  by_cases he : (cs.takeWhile (fun c => c != '/')).isEmpty
  · simp [matchSegments, he]
  · simp [matchSegments, hdrop, he]

theorem listStartsWith_decomp :
    ∀ (ns hs : List Char), listStartsWith ns hs = true →
      hs = ns ++ hs.drop ns.length := by
  intro ns
  induction ns with
  | nil => intro hs _; simp
  | cons n ns ih =>
    intro hs h
    cases hs with
    | nil => simp [listStartsWith] at h
    | cons c hs' =>
      simp only [listStartsWith, Bool.and_eq_true, beq_iff_eq] at h
      obtain ⟨rfl, h2⟩ := h
      simpa using ih hs' h2

theorem mem_of_listStartsWith {ns hs : List Char}
    (h : listStartsWith ns hs = true) {x : Char} (hx : x ∈ ns) : x ∈ hs := by
  rw [listStartsWith_decomp ns hs h]
  exact List.mem_append_left _ hx

theorem split_at_first_slash :
    ∀ (a a' b b' : List Char), (∀ c ∈ a, c ≠ '/') → (∀ c ∈ a', c ≠ '/') →
      a ++ '/' :: b = a' ++ '/' :: b' → a = a' ∧ b = b' := by
  intro a
  induction a with
  | nil =>
    intro a' b b' _ ha' h
    cases a' with
    | nil => simpa using h
    | cons c a'' =>
      simp only [List.nil_append, List.cons_append, List.cons.injEq] at h
      exact absurd h.1.symm (ha' c (List.mem_cons_self c a''))
  | cons c a ih =>
    intro a' b b' ha ha' h
    cases a' with
    | nil =>
      simp only [List.cons_append, List.nil_append, List.cons.injEq] at h
      exact absurd h.1 (ha c (List.mem_cons_self c a))
    | cons c' a'' =>
      simp only [List.cons_append, List.cons.injEq] at h
      obtain ⟨rfl, h2⟩ := h
      have h3 := ih a'' b b' (fun x hx => ha x (List.mem_cons_of_mem c hx))
        (fun x hx => ha' x (List.mem_cons_of_mem c hx)) h2
      exact ⟨by rw [h3.1], h3.2⟩

theorem urlMatch_none_of_no_slash (cs : List Char)
    (h : ∀ c ∈ cs, c ≠ '/') : urlMatch cs = none := by
  induction cs with
  | nil => rfl
  | cons c cs ih =>
    have hstart : listStartsWith githubNeedle (c :: cs) = false := by
      by_contra hs
      have hs' : listStartsWith githubNeedle (c :: cs) = true := by
        revert hs; cases listStartsWith githubNeedle (c :: cs) <;> simp
      have hmem : '/' ∈ c :: cs := mem_of_listStartsWith hs' (by decide)
      exact h _ hmem rfl
    simp [urlMatch, hstart, ih (fun x hx => h x (List.mem_cons_of_mem c hx))]

theorem urlMatch_none_single (o n : List Char)
    (hos : ∀ c ∈ o, c ≠ '/') (hns : ∀ c ∈ n, c ≠ '/') :
    urlMatch (o ++ '/' :: n) = none := by
  induction o with
  | nil =>
    have hstart : listStartsWith githubNeedle ('/' :: n) = false := rfl
    simp [urlMatch, hstart, urlMatch_none_of_no_slash n hns]
  | cons c o ih =>
    have ih' := ih (fun x hx => hos x (List.mem_cons_of_mem c hx))
    by_cases hstart : listStartsWith githubNeedle (c :: (o ++ '/' :: n)) = true
    · have hdec := listStartsWith_decomp _ _ hstart
      have hsplit : (c :: o) ++ '/' :: n =
          "github.com".toList ++ '/' ::
            ((c :: (o ++ '/' :: n)).drop githubNeedle.length) := by
        calc (c :: o) ++ '/' :: n = c :: (o ++ '/' :: n) := by simp
          _ = githubNeedle ++
              ((c :: (o ++ '/' :: n)).drop githubNeedle.length) := hdec
          _ = "github.com".toList ++ '/' ::
              ((c :: (o ++ '/' :: n)).drop githubNeedle.length) := rfl
      have h3 := split_at_first_slash (c :: o) ("github.com".toList) n
        ((c :: (o ++ '/' :: n)).drop githubNeedle.length) hos (by decide)
        hsplit
      have hms : matchSegments
          ((c :: (o ++ '/' :: n)).drop githubNeedle.length) = none := by
        rw [← h3.2]
        exact matchSegments_none_of_no_slash n hns
      simp [urlMatch, hstart, hms, ih']
    · simp [urlMatch, hstart, ih']

theorem urlMatch_none_of_no_needle (cs : List Char)
    (h : hasGithubNeedle cs = false) : urlMatch cs = none := by
  induction cs with
  | nil => rfl
  | cons c cs ih =>
    simp only [hasGithubNeedle, Bool.or_eq_false_iff] at h
    simp [urlMatch, h.1, ih h.2]

theorem shortMatch_split (o n : List Char) (ho : o ≠ []) (hn : n ≠ [])
    (hos : ∀ c ∈ o, c ≠ '/') (hns : ∀ c ∈ n, c ≠ '/') :
    shortMatch (o ++ '/' :: n) = some (o, n) := by
  have h := takeWhile_append_slash o n hos
  have hall : n.all (fun c => c != '/') = true :=
    List.all_eq_true.mpr (fun x hx => by simp [hns x hx])
  simp [shortMatch, h.1, h.2, hall, List.isEmpty_iff, ho, hn]

theorem dropWhile_head_false {p : Char → Bool} :
    ∀ {l : List Char} {c : Char} {rest : List Char},
      l.dropWhile p = c :: rest → p c = false := by
  intro l
  induction l with
  | nil => intro c rest h; simp [List.dropWhile] at h
  | cons a l ih =>
    intro c rest h
    rw [List.dropWhile_cons] at h
    by_cases hp : p a = true
    · rw [if_pos hp] at h
      exact ih h
    · rw [if_neg hp] at h
      cases h
      simpa using hp

theorem shortMatch_none_of_count (cs : List Char)
    (h : cs.count '/' ≠ 1) : shortMatch cs = none := by
  rcases hrest : cs.dropWhile (fun c => c != '/') with _ | ⟨c, rest2⟩
  · by_cases he : (cs.takeWhile (fun c => c != '/')).isEmpty <;>
      simp [shortMatch, hrest, he]
  · have hc : (c != '/') = false :=
      @dropWhile_head_false (fun x => x != '/') cs c rest2 hrest
    have hc' : c = '/' := by simpa using hc
    subst hc'
    have hsplit : cs.takeWhile (fun c => c != '/') ++ '/' :: rest2 = cs := by
      rw [← hrest]
      exact List.takeWhile_append_dropWhile _ _
    have hcount0 : (cs.takeWhile (fun c => c != '/')).count '/' = 0 := by
      rw [List.count_eq_zero]
      intro hmem
      have := List.mem_takeWhile_imp hmem
      simp at this
    have hrest2 : 1 ≤ rest2.count '/' := by
      have hcnt : cs.count '/' =
          (cs.takeWhile (fun c => c != '/')).count '/' +
            ('/' :: rest2).count '/' := by
        rw [← hsplit, List.count_append, hsplit]
      rw [List.count_cons] at hcnt
      simp only [hcount0] at hcnt
      simp only [beq_self_eq_true, if_pos] at hcnt
      omega
    have hmem2 : '/' ∈ rest2 := List.count_pos_iff.mp (by omega)
    have hall : rest2.all (fun c => c != '/') = false := by
      by_contra hb
      have hb' : rest2.all (fun c => c != '/') = true := by
        revert hb; cases rest2.all (fun c => c != '/') <;> simp
      have := List.all_eq_true.mp hb' '/' hmem2
      simp at this
    have hne2 : rest2.isEmpty = false := by
      cases rest2 with
      | nil => simp at hmem2
      | cons a l => rfl
    by_cases he : (cs.takeWhile (fun c => c != '/')).isEmpty <;>
      simp [shortMatch, hrest, he, hall, hne2]

theorem dropWhile_eq_self_of_all {p : Char → Bool} (l : List Char)
    (h : ∀ c ∈ l, p c = false) : l.dropWhile p = l := by
  cases l with
  | nil => rfl
  | cons c l =>
    rw [List.dropWhile_cons, if_neg]
    simp [h c (List.mem_cons_self c l)]

theorem jsTrim_eq_self (cs : List Char)
    (h : ∀ c ∈ cs, jsWhitespace c = false) : jsTrim cs = cs := by
  unfold jsTrim
  rw [dropWhile_eq_self_of_all cs h,
    dropWhile_eq_self_of_all cs.reverse
      (fun c hc => h c (List.mem_reverse.mp hc)),
    List.reverse_reverse]

theorem count_dropWhile_ws (l : List Char) :
    (l.dropWhile jsWhitespace).count '/' = l.count '/' := by
  induction l with
  | nil => rfl
  | cons c l ih =>
    rw [List.dropWhile_cons]
    by_cases hp : jsWhitespace c = true
    · have hcne : (c == '/') = false := by
        have : ¬c = '/' := by
          intro he
          rw [he] at hp
          exact absurd hp (by decide)
        simp [this]
      rw [if_pos hp, ih, List.count_cons, hcne]
      simp
    · rw [if_neg hp]

theorem count_jsTrim (cs : List Char) :
    (jsTrim cs).count '/' = cs.count '/' := by
  unfold jsTrim
  rw [List.count_reverse, count_dropWhile_ws, List.count_reverse,
    count_dropWhile_ws]

theorem listStartsWith_self_append (s t : List Char) :
    listStartsWith s (s ++ t) = true := by
  induction s with
  | nil => rfl
  | cons c s ih => simp [listStartsWith, ih]

theorem stripGit_append (n : List Char) : stripGit (n ++ gitSuffix) = n := by
  have hend : listEndsWith gitSuffix (n ++ gitSuffix) = true := by
    unfold listEndsWith
    rw [List.reverse_append]
    exact listStartsWith_self_append _ _
  unfold stripGit
  rw [if_pos hend]
  have hlen : (n ++ gitSuffix).length - 4 = n.length := by simp [gitSuffix]
  rw [hlen]
  exact List.take_left n gitSuffix

theorem stripGit_eq_self (n : List Char)
    (h : listEndsWith gitSuffix n = false) : stripGit n = n := by
  unfold stripGit
  rw [if_neg]
  simp [h]

theorem urlMatch_https (tail : List Char) (r : List Char × List Char)
    (h : matchSegments tail = some r) :
    urlMatch ("https://github.com/".toList ++ tail) = some r := by
  show urlMatch ('h' :: 't' :: 't' :: 'p' :: 's' :: ':' :: '/' :: '/' ::
    'g' :: 'i' :: 't' :: 'h' :: 'u' :: 'b' :: '.' :: 'c' :: 'o' :: 'm' ::
    '/' :: tail) = some r
  simp [urlMatch, listStartsWith, githubNeedle, h]

theorem parseRepoUrl_eq_url (s : String) (o r : List Char)
    (h : urlMatch s.toList = some (o, r)) :
    parseRepoUrl s = .ok (String.mk o, String.mk (stripGit r)) := by
  unfold parseRepoUrl
  rw [h]

theorem parseRepoUrl_eq_short (s : String) (o r : List Char)
    (h1 : urlMatch s.toList = none)
    (h2 : shortMatch (jsTrim s.toList) = some (o, r)) :
    parseRepoUrl s = .ok (String.mk o, String.mk (stripGit r)) := by
  unfold parseRepoUrl
  rw [h1, h2]

theorem parseRepoUrl_eq_err (s : String)
    (h1 : urlMatch s.toList = none)
    (h2 : shortMatch (jsTrim s.toList) = none) :
    parseRepoUrl s = .error invalidUrlMsg := by
  unfold parseRepoUrl
  rw [h1, h2]

/-- C5: for every owner and name, `parseRepoUrl` applied to any of the four
reference forms `https://github.com/owner/name`, the same with a trailing
`.git`, bare `owner/name`, and bare with `.git`, returns the same
`(owner, name)` pair, with the `.git` suffix stripped.  The hypotheses state
that owner and name are nonempty and contain neither `'/'` nor any character
that `trim()` strips (the ECMAScript whitespace set of `jsWhitespace`), and
that the name does not itself end in `.git`. -/
theorem parseRepoUrl_same_identity (ow nm : String)
    (ho : ow.toList ≠ []) (hn : nm.toList ≠ [])
    (hosl : ∀ c ∈ ow.toList, c ≠ '/') (hnsl : ∀ c ∈ nm.toList, c ≠ '/')
    (how : ∀ c ∈ ow.toList, jsWhitespace c = false)
    (hnw : ∀ c ∈ nm.toList, jsWhitespace c = false)
    (hg : listEndsWith gitSuffix nm.toList = false) :
    parseRepoUrl ("https://github.com/" ++ ow ++ "/" ++ nm) =
      .ok (ow, nm) ∧
    parseRepoUrl ("https://github.com/" ++ ow ++ "/" ++ nm ++ ".git") =
      .ok (ow, nm) ∧
    parseRepoUrl (ow ++ "/" ++ nm) = .ok (ow, nm) ∧
    parseRepoUrl (ow ++ "/" ++ nm ++ ".git") = .ok (ow, nm) := by
  have hslash : ("/" : String).data = ['/'] := rfl
  have hgitsf : ∀ c ∈ gitSuffix, c ≠ '/' := by decide
  have hgitnw : ∀ c ∈ gitSuffix, jsWhitespace c = false := by decide
  have hn2 : nm.toList ++ gitSuffix ≠ [] := by simp [gitSuffix]
  have hnsl2 : ∀ c ∈ nm.toList ++ gitSuffix, c ≠ '/' := by
    intro c hc
    rcases List.mem_append.mp hc with hc | hc
    · exact hnsl c hc
    · exact hgitsf c hc
  have hnw2 : ∀ c ∈ nm.toList ++ gitSuffix, jsWhitespace c = false := by
    intro c hc
    rcases List.mem_append.mp hc with hc | hc
    · exact hnw c hc
    · exact hgitnw c hc
  refine ⟨?_, ?_, ?_, ?_⟩
  · have ht : ("https://github.com/" ++ ow ++ "/" ++ nm).toList =
        "https://github.com/".toList ++ (ow.toList ++ '/' :: nm.toList) := by
      simp [String.toList, String.data_append, hslash]
    have hmu : urlMatch (("https://github.com/" ++ ow ++ "/" ++ nm).toList) =
        some (ow.toList, nm.toList) := by
      rw [ht]
      exact urlMatch_https _ _ (matchSegments_split _ _ ho hn hosl hnsl)
    rw [parseRepoUrl_eq_url _ _ _ hmu, stripGit_eq_self _ hg]
    rfl
  · have ht : ("https://github.com/" ++ ow ++ "/" ++ nm ++ ".git").toList =
        "https://github.com/".toList ++
          (ow.toList ++ '/' :: (nm.toList ++ gitSuffix)) := by
      simp [String.toList, String.data_append, hslash, gitSuffix]
    have hmu : urlMatch
        (("https://github.com/" ++ ow ++ "/" ++ nm ++ ".git").toList) =
        some (ow.toList, nm.toList ++ gitSuffix) := by
      rw [ht]
      exact urlMatch_https _ _ (matchSegments_split _ _ ho hn2 hosl hnsl2)
    rw [parseRepoUrl_eq_url _ _ _ hmu, stripGit_append]
    rfl
  · have ht : (ow ++ "/" ++ nm).toList = ow.toList ++ '/' :: nm.toList := by
      simp [String.toList, String.data_append, hslash]
    have hmu : urlMatch ((ow ++ "/" ++ nm).toList) = none := by
      rw [ht]
      exact urlMatch_none_single _ _ hosl hnsl
    have hms : shortMatch (jsTrim ((ow ++ "/" ++ nm).toList)) =
        some (ow.toList, nm.toList) := by
      rw [ht, jsTrim_eq_self]
      · exact shortMatch_split _ _ ho hn hosl hnsl
      · intro c hc
        rcases List.mem_append.mp hc with hc | hc
        · exact how c hc
        · rcases List.mem_cons.mp hc with rfl | hc
          · decide
          · exact hnw c hc
    rw [parseRepoUrl_eq_short _ _ _ hmu hms, stripGit_eq_self _ hg]
    rfl
  · have ht : (ow ++ "/" ++ nm ++ ".git").toList =
        ow.toList ++ '/' :: (nm.toList ++ gitSuffix) := by
      simp [String.toList, String.data_append, hslash, gitSuffix]
    have hmu : urlMatch ((ow ++ "/" ++ nm ++ ".git").toList) = none := by
      rw [ht]
      exact urlMatch_none_single _ _ hosl hnsl2
    have hms : shortMatch (jsTrim ((ow ++ "/" ++ nm ++ ".git").toList)) =
        some (ow.toList, nm.toList ++ gitSuffix) := by
      rw [ht, jsTrim_eq_self]
      · exact shortMatch_split _ _ ho hn2 hosl hnsl2
      · intro c hc
        rcases List.mem_append.mp hc with hc | hc
        · exact how c hc
        · rcases List.mem_cons.mp hc with rfl | hc
          · decide
          · exact hnw2 c hc
    rw [parseRepoUrl_eq_short _ _ _ hmu hms, stripGit_append]
    rfl

/-- C6: for every malformed reference — the empty string, a string with no
slash at all, or a string with more slash-separated segments than one
owner/name pair (at least two slashes) that does not contain the recognized
`github.com/` host marker — `parseRepoUrl` fails with the invalid-reference
error; being an `Except.error`, the result carries no partial identity. -/
theorem parseRepoUrl_malformed (s : String)
    (h : s.toList = [] ∨ s.toList.count '/' = 0 ∨
      (2 ≤ s.toList.count '/' ∧ hasGithubNeedle s.toList = false)) :
    parseRepoUrl s = .error invalidUrlMsg := by
  have hcount : s.toList.count '/' ≠ 1 := by
    rcases h with h | h | h
    · rw [h]
      simp
    · omega
    · omega
  have hshort : shortMatch (jsTrim s.toList) = none :=
    shortMatch_none_of_count _ (by rw [count_jsTrim]; exact hcount)
  have hurl : urlMatch s.toList = none := by
    rcases h with h | h | h
    · rw [h]; rfl
    · refine urlMatch_none_of_no_slash _ (fun c hc => ?_)
      intro he
      have hpos : 0 < s.toList.count '/' :=
        List.count_pos_iff.mpr (he ▸ hc)
      omega
    · exact urlMatch_none_of_no_needle _ h.2
  exact parseRepoUrl_eq_err _ hurl hshort

theorem parseRepoUrl_same_identity_witness :
    parseRepoUrl ("https://github.com/" ++ "octo" ++ "/" ++ "pulse") =
      .ok ("octo", "pulse") ∧
    parseRepoUrl ("https://github.com/" ++ "octo" ++ "/" ++ "pulse" ++ ".git") =
      .ok ("octo", "pulse") ∧
    parseRepoUrl ("octo" ++ "/" ++ "pulse") = .ok ("octo", "pulse") ∧
    parseRepoUrl ("octo" ++ "/" ++ "pulse" ++ ".git") =
      .ok ("octo", "pulse") :=
  parseRepoUrl_same_identity "octo" "pulse" (by decide) (by decide) (by decide)
    (by decide) (by decide) (by decide) (by decide)

theorem parseRepoUrl_malformed_witness :
    parseRepoUrl "a/b/c" = .error invalidUrlMsg :=
  parseRepoUrl_malformed "a/b/c" (Or.inr (Or.inr (by decide)))

/-- The repository metadata as normalized by `fetchRepoMetadata`. -/
structure RepoMetadata where
  name : String
  fullName : String
  description : Option String
  owner : Option String
  ownerAvatar : Option String
  defaultBranch : String
  language : Option String
  stars : Nat
  forks : Nat
  openIssues : Nat
  createdAt : String
  updatedAt : String
  pushedAt : String
  htmlUrl : String
  deriving Repr, DecidableEq

/-- A raw contributor record from the contributors endpoint. -/
structure RawContributor where
  login : String
  avatar_url : Option String
  contributions : Nat
  deriving Repr, DecidableEq

/-- The `.map` callback of `fetchContributors`: `commitsByDay` starts as the
empty object, to be populated later from the commits data. -/
def mapContributor (c : RawContributor) : Contributor :=
  { login := c.login
    avatarUrl := c.avatar_url
    totalCommits := c.contributions
    commitsByDay := [] }

/-- The function `fetchContributors` (lines 364–378), applied to the outcome
of its paginated fetch: the raw pages mapped to the normalized schema, or —
because the whole body is wrapped in `try`/`catch` — the empty list when the
fetch failed. -/
def fetchContributors (pages : Except String (List RawContributor)) :
    List Contributor :=
  match pages with
  | .ok contributors => contributors.map mapContributor
  | .error _ => []

/-- The aggregated result returned by `fetchRepoData`. -/
structure RepoData where
  meta : RepoMetadata
  commits : List Commit
  branches : List BranchStatus
  pullRequests : List PullRequest
  issues : List Issue
  contributors : List Contributor
  fetchedAt : String
  deriving Repr, DecidableEq

/-- The upstream world observed by one `fetchRepoData` run: the values the
individual collectors produce once their awaits resolve.  `contributorPages`
is the outcome of the contributors fetch before its `catch`;
`recentCommits` gives the (already failure-tolerant, lines 246–250) commit
list per branch name; `fetchedAt` is the completion timestamp. -/
structure FetchEnv where
  meta : RepoMetadata
  branches : List Branch
  pullRequests : List PullRequest
  issues : List Issue
  contributorPages : Except String (List RawContributor)
  recentCommits : String → List Commit
  fetchedAt : String

/-- One `Set.add`: append if absent (JS sets preserve insertion order). -/
def insertUnique (l : List String) (s : String) : List String :=
  if s ∈ l then l else l ++ [s]

/-- The branch-selection step of `fetchRepoData` (lines 443–450): a set
seeded with the default branch, extended with every truthy pull-request head
branch in order, then `slice(0, 5)`. -/
def branchesToFetch (defaultBranch : String)
    (pullRequests : List PullRequest) : List String :=
  (pullRequests.foldl
    (fun acc pr =>
      match pr.branch with
      | some b => if b = "" then acc else insertUnique acc b
      | none => acc)
    [defaultBranch]).take 5

/-- The function `fetchRepoData` (lines 429–480), as the deterministic
composition of the collectors' results: commits aggregated from the selected
branches, contributors enriched with activity, branches marked stale, and the
remaining fields passed through. -/
def fetchRepoData (env : FetchEnv) : RepoData :=
  let contributors := fetchContributors env.contributorPages
  let branchArray := branchesToFetch env.meta.defaultBranch env.pullRequests
  let commits := aggregateCommits (branchArray.map env.recentCommits)
  { meta := env.meta
    commits := commits
    branches := markStaleBranches env.branches env.pullRequests env.issues
    pullRequests := env.pullRequests
    issues := env.issues
    contributors := enrichContributorsWithActivity contributors commits
    fetchedAt := env.fetchedAt }

/-- C4: if the contributors collector fails, aggregation does not fail:
`fetchRepoData` still returns a result in which `contributors` is the empty
sequence and every other field (metadata, branches, pull requests, issues,
commits, fetchedAt) is populated exactly as it would be under any other
contributors outcome, in particular a successful one. -/
theorem fetchRepoData_tolerates_contributors_failure (env : FetchEnv)
    (e : String) (pages : Except String (List RawContributor)) :
    (fetchRepoData { env with contributorPages := .error e }).contributors
      = [] ∧
    (fetchRepoData { env with contributorPages := .error e }).meta =
      (fetchRepoData { env with contributorPages := pages }).meta ∧
    (fetchRepoData { env with contributorPages := .error e }).commits =
      (fetchRepoData { env with contributorPages := pages }).commits ∧
    (fetchRepoData { env with contributorPages := .error e }).branches =
      (fetchRepoData { env with contributorPages := pages }).branches ∧
    (fetchRepoData { env with contributorPages := .error e }).pullRequests =
      (fetchRepoData { env with contributorPages := pages }).pullRequests ∧
    (fetchRepoData { env with contributorPages := .error e }).issues =
      (fetchRepoData { env with contributorPages := pages }).issues ∧
    (fetchRepoData { env with contributorPages := .error e }).fetchedAt =
      (fetchRepoData { env with contributorPages := pages }).fetchedAt :=
  ⟨rfl, rfl, rfl, rfl, rfl, rfl, rfl⟩

/-- The cache time-to-live: 5 minutes, in milliseconds. -/
def cacheTTLMillis : Nat := 5 * 60 * 1000

/-- A cache entry: the stored payload and its expiry instant. -/
structure CacheEntry (α : Type) where
  value : α
  expiresAt : Nat

/-- Modelled from the spec: the cache backing store of `cacheService.js`,
which is not among the sources — §4.5 specifies an in-memory mapping from a
string key to a value with an expiry stamped now-plus-TTL at write time. -/
def emptyCache {α : Type} : String → Option (CacheEntry α) :=
  fun _ => none

/-- Modelled from the spec: `setCachedData(key, value)` stores the value
under the string key with expiry `now + TTL` (§4.5). -/
def setCachedData {α : Type} (store : String → Option (CacheEntry α))
    (key : String) (v : α) (now : Nat) : String → Option (CacheEntry α) :=
  fun k => if k = key then some ⟨v, now + cacheTTLMillis⟩ else store k

/-- Modelled from the spec: `getCachedData(key)` returns the stored value for
the string key, treating an expired entry as a miss (§4.5). -/
def getCachedData {α : Type} (store : String → Option (CacheEntry α))
    (key : String) (now : Nat) : Option α :=
  match store key with
  | some e => if e.expiresAt < now then none else some e.value
  | none => none

/-- The cache key used by the pulse route (lines 40–47 and 81–82): the raw
`repoUrl` string from the request body, passed verbatim to `getCachedData`
and `setCachedData` — not the parsed `(owner, repo)` identity. -/
def routerCacheKey (repoUrl : String) : String := repoUrl

/-- C7 counterexample: `owner/repo` and `https://github.com/owner/repo` parse
to the same `(owner, repo)` identity, yet a result stored after aggregating
the first is not returned by a cache lookup for the second — the route keys
the cache by the raw reference string, not the canonical identity string. -/
theorem cacheKey_not_canonical_counterexample :
    parseRepoUrl "owner/repo" = .ok ("owner", "repo") ∧
    parseRepoUrl "https://github.com/owner/repo" = .ok ("owner", "repo") ∧
    getCachedData
      (setCachedData (emptyCache (α := Nat)) (routerCacheKey "owner/repo") 7 0)
      (routerCacheKey "https://github.com/owner/repo") 0 = none := by
  refine ⟨rfl, rfl, ?_⟩
  have hne : routerCacheKey "https://github.com/owner/repo" ≠
      routerCacheKey "owner/repo" := by decide
  simp [getCachedData, setCachedData, emptyCache, hne]

/-- C7 amended: the result cache is keyed by the raw reference string exactly
as supplied by the caller: a stored result is returned by a lookup with the
identical reference string while the entry is unexpired, and a lookup with
any other key — including a different reference that parses to the same
identity — is unaffected by the store. -/
theorem cache_keyed_by_raw_reference {α : Type}
    (store : String → Option (CacheEntry α)) (repoUrl : String) (v : α)
    (now now' : Nat) (hfresh : now' ≤ now + cacheTTLMillis) :
    getCachedData (setCachedData store (routerCacheKey repoUrl) v now)
      (routerCacheKey repoUrl) now' = some v ∧
    ∀ other : String, routerCacheKey other ≠ routerCacheKey repoUrl →
      getCachedData (setCachedData store (routerCacheKey repoUrl) v now)
        (routerCacheKey other) now' =
      getCachedData store (routerCacheKey other) now' := by
  constructor
  · have hentry : setCachedData store (routerCacheKey repoUrl) v now
        (routerCacheKey repoUrl) = some ⟨v, now + cacheTTLMillis⟩ := by
      unfold setCachedData
      rw [if_pos rfl]
    unfold getCachedData
    rw [hentry]
    have hexp : ¬(now + cacheTTLMillis < now') := by omega
    simp [hexp]
  · intro other hne
    have hentry : setCachedData store (routerCacheKey repoUrl) v now
        (routerCacheKey other) = store (routerCacheKey other) := by
      unfold setCachedData
      rw [if_neg hne]
    unfold getCachedData
    rw [hentry]

theorem cache_keyed_by_raw_reference_witness :
    getCachedData
      (setCachedData (emptyCache (α := Nat)) (routerCacheKey "owner/repo") 7 0)
      (routerCacheKey "owner/repo") 1000 = some 7 :=
  (cache_keyed_by_raw_reference (emptyCache (α := Nat)) "owner/repo" 7 0 1000
    (by decide)).1

end ProjectPulse
